import Mathlib

/-!
Verification of the cursor2api cross-protocol streaming translator.

The development shallowly embeds the two source files of the repository:
`internal/tools/intent.go` (pattern classifier: refusal detection, recovery
command extraction, user intent classification) and
`internal/handler/anthropic.go` (chunk reassembly, upstream event decoding,
streaming protocol re-emission, and the non-streaming block constructor with
its refusal-recovery fallback).

Modelling conventions:
* Go strings are modelled as `List Char` (`Str`); splitting on the byte
  `'\n'` coincides with splitting on the character `'\n'` for UTF-8 text,
  since the newline byte never occurs inside a multi-byte sequence.
* `strings.ToLower` is modelled per character by `Char.toLower` (basic latin
  mapping); it agrees with Go on ASCII and on the fixed pattern sets used by
  the classifier (the Chinese pattern characters are case-invariant in both).
* External collaborators that the source only uses through their contracts —
  the structured tool-call parser `ToolCallParser` (`tools.Parser`, not part
  of the given sources), the executor (`tools.Executor`), upstream transport,
  `json.Unmarshal` / `json.Marshal`, and the `generateID` UUID source — are
  universally quantified parameters of the embedded functions.
-/

namespace Cursor2api

/-- Go strings, modelled as lists of characters. -/
abbrev Str := List Char

/-- The apostrophe character (several refusal phrases contain it). -/
def apos : Char := Char.ofNat 39

/-- Per-character lowercase map, modelling `strings.ToLower`. -/
def lowerL (s : Str) : Str := s.map Char.toLower

/-- `containsSub s sub` models Go `strings.Contains(s, sub)`:
scan every suffix of `s` for `sub` as a prefix. -/
def containsSub (sub : Str) : Str → Bool
  | [] => sub.isPrefixOf []
  | c :: cs => sub.isPrefixOf (c :: cs) || containsSub sub cs

theorem containsSub_iff (sub s : Str) : containsSub sub s = true ↔ sub <:+: s := by
  induction s with
  | nil => simp [containsSub, List.isPrefixOf_iff_prefix]
  | cons c cs ih =>
    simp only [containsSub, Bool.or_eq_true, List.isPrefixOf_iff_prefix, ih]
    rw [List.infix_cons_iff]

/-! ## Embedding of `internal/tools/intent.go` -/

/-- The fixed multilingual refusal phrase set of `DetectRefusal`
(intent.go lines 108-125), in source order. -/
def refusalPatterns : List Str :=
  [ "无法直接".data, "无法执行".data, "不能执行".data, "受到了限制".data,
    "没有权限".data, "无法帮你".data, "cannot directly".data, "unable to".data,
    "don".data ++ [apos] ++ "t have access".data,
    "I can".data ++ [apos] ++ "t".data,
    "我不能".data, "我无法".data, "请在你的终端".data, "请在本地".data,
    "你需要在".data, "你可以运行".data ]

/-- `DetectRefusal` (intent.go lines 107-134): true iff the lowercased
response contains the lowercased form of at least one refusal phrase. -/
def DetectRefusal (response : Str) : Bool :=
  let responseLower := lowerL response
  refusalPatterns.any fun pattern => containsSub (lowerL pattern) responseLower

/-- Go RE2 whitespace class `\s`, i.e. tab, newline, form feed,
carriage return and space. -/
def isGoSpace (c : Char) : Bool :=
  c = ' ' || c = '\t' || c = '\n' || c = Char.ofNat 12 || c = '\r'

/-- `unicode.IsSpace`, the class trimmed by Go `strings.TrimSpace`. -/
def isUnicodeSpace (c : Char) : Bool :=
  c = ' ' || c = '\t' || c = '\n' || c = Char.ofNat 11 || c = Char.ofNat 12 ||
  c = '\r' || c = Char.ofNat 0x85 || c = Char.ofNat 0xA0 ||
  c = Char.ofNat 0x1680 ||
  (0x2000 ≤ c.toNat && c.toNat ≤ 0x200A) ||
  c = Char.ofNat 0x2028 || c = Char.ofNat 0x2029 || c = Char.ofNat 0x202F ||
  c = Char.ofNat 0x205F || c = Char.ofNat 0x3000

/-- Go `strings.TrimSpace`. -/
def trimSpace (s : Str) : Str :=
  ((s.dropWhile isUnicodeSpace).reverse.dropWhile isUnicodeSpace).reverse

/-- Try `f n, f (n-1), …, f 0` and return the first success: models the
backtracking order of a greedy quantifier in Go's regexp engine
(longest candidate first). -/
def firstDesc (f : Nat → Option β) : Nat → Option β
  | 0 => f 0
  | n + 1 => f (n + 1) <|> firstDesc f n

/-- Try `f` at every suffix of the input, leftmost position first:
models an unanchored leftmost-first regexp search. -/
def scanSuffixes (f : Str → Option β) : Str → Option β
  | [] => f []
  | c :: cs => f (c :: cs) <|> scanSuffixes f cs

/-- Auxiliary for `scanLineStarts`: try `f` right after every newline. -/
def scanAfterNl (f : Str → Option β) : Str → Option β
  | [] => none
  | c :: cs => if c = '\n' then f cs <|> scanAfterNl f cs else scanAfterNl f cs

/-- Try `f` at every position where a `(?m)^` anchor holds (start of the
text and right after every newline), leftmost first. -/
def scanLineStarts (f : Str → Option β) (s : Str) : Option β :=
  f s <|> scanAfterNl f s

/-- Match the tail `([^` + `]+)\n` + "```" of the fenced-code-block regex
against `u`, greedy body first; returns the captured body. -/
def tryBodyFrom (u : Str) : Option Str :=
  let maxLen := (u.takeWhile (· ≠ '`')).length
  firstDesc (fun len =>
    if len = 0 then none
    else if ("\n```".data).isPrefixOf (u.drop len) then some (u.take len)
    else none) maxLen

/-- Match `\s*\n` then the body tail against `rest2` (the text after the
fence and optional language tag), backtracking the greedy `\s*` from the
longest candidate down. -/
def tryAfterLang (rest2 : Str) : Option Str :=
  let wsLen := (rest2.takeWhile isGoSpace).length
  firstDesc (fun k =>
    match rest2.drop k with
    | c :: u => if c = '\n' then tryBodyFrom u else none
    | [] => none) wsLen

/-- Match the code-block regex `"` + "```" + `(?:bash|sh)?\s*\n([^` +
"`" + `]+)\n` + "```" + `"` at one position (intent.go line 139); the
optional group prefers `bash`, then `sh`, then nothing, as in Go's
leftmost-first engine. -/
def tryCodeBlockAt (t : Str) : Option Str :=
  if ("```".data).isPrefixOf t then
    let rest := t.drop 3
    (if ("bash".data).isPrefixOf rest then tryAfterLang (rest.drop 4) else none) <|>
    (if ("sh".data).isPrefixOf rest then tryAfterLang (rest.drop 2) else none) <|>
    tryAfterLang rest
  else none

/-- `codeBlockRe.FindStringSubmatch` capture, leftmost match first. -/
def findCodeBlock (response : Str) : Option Str :=
  scanSuffixes tryCodeBlockAt response

/-- The shell-verb allow list of the first single-line command pattern. -/
def cmdVerbs : List Str :=
  [ "cat".data, "echo".data, "mkdir".data, "touch".data, "rm".data,
    "cp".data, "mv".data, "ls".data, "cd".data, "pwd".data ]

/-- Match `\s+.+$` against `u` and return the consumed length.  `\s+` is
greedy (longest first); `.+` then takes the whole remaining run of
non-newline characters, after which `$` (multiline) always holds. -/
def tryCmdTail (u : Str) : Option Nat :=
  let wsLen := (u.takeWhile isGoSpace).length
  firstDesc (fun j =>
    if j = 0 then none
    else
      let lineLen := ((u.drop j).takeWhile (· ≠ '\n')).length
      if lineLen = 0 then none else some (j + lineLen)) wsLen

/-- Match `^\s*(cat|echo|mkdir|touch|rm|cp|mv|ls|cd|pwd)\s+.+$` at one
anchored position; returns the whole matched substring
(`FindString` semantics). -/
def tryCmdLineAt (t : Str) : Option Str :=
  let wsLen := (t.takeWhile isGoSpace).length
  (firstDesc (fun k =>
    cmdVerbs.findSome? (fun v =>
      if v.isPrefixOf (t.drop k) then
        (tryCmdTail (t.drop (k + v.length))).map (fun m => k + v.length + m)
      else none)) wsLen).map (fun len => t.take len)

/-- `FindString` for the first single-line command pattern
(intent.go line 146). -/
def findCmdLine (response : Str) : Option Str :=
  scanLineStarts tryCmdLineAt response

/-- Match `^\s*(\S+)\s+>\s+\S+` at one anchored position; returns the
matched substring.  After each greedy `\s+`, the following literal `>`
(resp. `\S`) is not a space, so only the full whitespace run can precede
it; the leading `\s*` likewise only succeeds at the full run because
`\S+` must start with a non-space. -/
def tryRedirAt (t : Str) : Option Str :=
  let wsLen := (t.takeWhile isGoSpace).length
  let u := t.drop wsLen
  let nsLen := (u.takeWhile (fun c => !isGoSpace c)).length
  (firstDesc (fun m =>
    if m = 0 then none
    else
      let v := u.drop m
      let ws1 := (v.takeWhile isGoSpace).length
      if ws1 = 0 then none
      else
        match v.drop ws1 with
        | c :: w =>
          if c = '>' then
            let ws2 := (w.takeWhile isGoSpace).length
            if ws2 = 0 then none
            else
              let ns2 := ((w.drop ws2).takeWhile (fun c2 => !isGoSpace c2)).length
              if ns2 = 0 then none
              else some (wsLen + m + ws1 + 1 + ws2 + ns2)
          else none
        | [] => none) nsLen).map (fun len => t.take len)

/-- `FindString` for the redirection pattern (intent.go line 147). -/
def findRedirLine (response : Str) : Option Str :=
  scanLineStarts tryRedirAt response

/-- `ExtractCommandFromRefusal` (intent.go lines 137-156): first the body
of a fenced shell code block, then a line starting with an allow-listed
shell verb, then a redirection line; the first successful rule wins and
its result is trimmed; empty if none match. -/
def ExtractCommandFromRefusal (response : Str) : Str :=
  match findCodeBlock response with
  | some body => trimSpace body
  | none =>
    match findCmdLine response with
    | some m => trimSpace m
    | none =>
      match findRedirLine response with
      | some m => trimSpace m
      | none => []

/-- The shapes of the action regexes of `ParseUserIntent`: a plain
literal, `a.*?b` (dot does not match newline), or `a\s+`. -/
inductive GoPat where
  | lit (w : Str)
  | dotLazy (a b : Str)
  | wsPlus (a : Str)

/-- Match `b` after consuming zero or more non-newline characters
(the `.*?b` tail; laziness is irrelevant for a boolean match). -/
def matchFromDot (b : Str) : Str → Bool
  | [] => b.isPrefixOf []
  | c :: cs => b.isPrefixOf (c :: cs) || (if c = '\n' then false else matchFromDot b cs)

/-- Does `f` hold on some suffix (unanchored boolean regexp match)? -/
def anySuffix (f : Str → Bool) : Str → Bool
  | [] => f []
  | c :: cs => f (c :: cs) || anySuffix f cs

/-- Boolean unanchored match of one action pattern
(`regexp.MatchString`). -/
def matchGoPat (p : GoPat) (text : Str) : Bool :=
  match p with
  | .lit w => containsSub w text
  | .dotLazy a b =>
    anySuffix (fun t => a.isPrefixOf t && matchFromDot b (t.drop a.length)) text
  | .wsPlus a =>
    anySuffix (fun t => a.isPrefixOf t &&
      (match t.drop a.length with | c :: _ => isGoSpace c | [] => false)) text

/-- `createPatterns` (intent.go lines 33-40). -/
def createPatterns : List GoPat :=
  [ .dotLazy "创建".data "文件".data, .dotLazy "create".data "file".data,
    .dotLazy "写入".data "文件".data, .dotLazy "write".data "to".data,
    .lit "帮我创建".data, .lit "新建".data ]

/-- `readPatterns` (intent.go lines 49-55). -/
def readPatterns : List GoPat :=
  [ .dotLazy "读取".data "文件".data, .dotLazy "read".data "file".data,
    .dotLazy "查看".data "文件".data, .dotLazy "看".data "内容".data,
    .wsPlus "cat".data ]

/-- `cmdPatterns` of the intent classifier (intent.go lines 64-69). -/
def runPatterns : List GoPat :=
  [ .dotLazy "执行".data "命令".data, .dotLazy "run".data "command".data,
    .lit "运行".data, .lit "execute".data ]

/-- The classified text: user messages joined with a space, lowercased
(intent.go lines 27-28). -/
def guessActionText (messages : List Str) : Str :=
  lowerL (List.intercalate [' '] messages)

/-- The `Action` field computed by `ParseUserIntent` (intent.go lines
30-75): the create, read and run pattern groups are checked in that
order and each later group overwrites the action chosen by an earlier
one.  Within a group the loop breaks at the first match, which for a
constant action is equivalent to an any-match. -/
def ParseUserIntentAction (messages : List Str) : Str :=
  let text := guessActionText messages
  let act1 := if createPatterns.any (fun p => matchGoPat p text) then "create_file".data else []
  let act2 := if readPatterns.any (fun p => matchGoPat p text) then "read_file".data else act1
  if runPatterns.any (fun p => matchGoPat p text) then "run_command".data else act2

/-- Modelled from the claim's words for comparison: the ordered candidate
list (create-file patterns, then read-file patterns, then run-command
patterns) in which the first matching pattern determines the action. -/
def orderedActionPatterns : List (GoPat × Str) :=
  createPatterns.map (fun p => (p, "create_file".data)) ++
  readPatterns.map (fun p => (p, "read_file".data)) ++
  runPatterns.map (fun p => (p, "run_command".data))

/-- The action associated with the result of a candidate search. -/
def actionOf (o : Option (GoPat × Str)) : Str :=
  match o with
  | some pr => pr.2
  | none => []

/-- Modelled from the claim's words: first matching pattern in the
ordered candidate list wins. -/
def firstMatchAction (messages : List Str) : Str :=
  actionOf (orderedActionPatterns.find?
    (fun pr => matchGoPat pr.1 (guessActionText messages)))

/-- The declarative characterization that actually holds for the code:
first matching pattern in the REVERSED group order (run-command patterns,
then read-file patterns, then create-file patterns) wins. -/
def lastGroupFirstMatchAction (messages : List Str) : Str :=
  actionOf ((runPatterns.map (fun p => (p, "run_command".data)) ++
      (readPatterns.map (fun p => (p, "read_file".data)) ++
       createPatterns.map (fun p => (p, "create_file".data)))).find?
    (fun pr => matchGoPat pr.1 (guessActionText messages)))

/-! ## Embedding of `internal/handler/anthropic.go` -/

/-- Go `strings.Split(content, "\n")` (never returns an empty list; a
trailing terminator yields a trailing empty segment). -/
def splitLines : Str → List Str
  | [] => [[]]
  | c :: cs =>
    if c = '\n' then [] :: splitLines cs
    else
      match splitLines cs with
      | [] => [[c]]
      | l :: ls => (c :: l) :: ls

/-- Canonical line decomposition: the newline-closed lines of a text and
its final terminator-less tail. -/
def linesTail : Str → List Str × Str
  | [] => ([], [])
  | c :: cs =>
    if c = '\n' then ([] :: (linesTail cs).1, (linesTail cs).2)
    else
      match (linesTail cs).1 with
      | l :: ls => ((c :: l) :: ls, (linesTail cs).2)
      | [] => ([], c :: (linesTail cs).2)

/-- Rejoin closed lines with their terminators. -/
def joinNl (ls : List Str) : Str := (ls.map (· ++ ['\n'])).flatten

/-- One callback invocation of the chunk reassembler (anthropic.go lines
314-327): append the chunk to the pending buffer, split on the line
terminator, and when the buffer did not end in a terminator re-buffer the
last segment; returns the new pending buffer and the lines handed to the
frame loop. -/
def feed (pending chunk : Str) : Str × List Str :=
  let content := pending ++ chunk
  let lines := splitLines content
  if content.getLast? ≠ some '\n' ∧ 0 < lines.length then
    (lines.getLastD [], lines.dropLast)
  else
    ([], lines)

/-- Feed a sequence of chunks through the reassembler, accumulating the
emitted frames (the buffer persists across callback invocations). -/
def feedAll (pending : Str) : List Str → Str × List Str
  | [] => (pending, [])
  | c :: cs =>
    let fc := feed pending c
    let rest := feedAll fc.1 cs
    (rest.1, fc.2 ++ rest.2)

/-- A decoded upstream event (`CursorSSEEvent`, anthropic.go lines
76-79). -/
structure UpEvent where
  type : Str
  delta : Str

/-- The body of the per-line loop (anthropic.go lines 328-348, also lines
419-435 of the non-streaming handler): keep only lines with the
`data: ` prefix and non-empty payload, decode them (`json.Unmarshal`,
abstracted as `dec`; a decode failure is `none` and is dropped), and keep
the delta of `text-delta` events when it is non-empty. -/
def processLine (dec : Str → Option UpEvent) (line : Str) : Option Str :=
  if ("data: ".data).isPrefixOf line then
    let data := line.drop ("data: ".data).length
    if data = [] then none
    else
      match dec data with
      | none => none
      | some ev =>
        if ev.type = "text-delta".data ∧ ev.delta ≠ [] then some ev.delta else none
  else none

/-- All frames produced over a whole stream. -/
def streamFrames (chunks : List Str) : List Str := (feedAll [] chunks).2

/-- The text deltas forwarded to the client, in arrival order.  The code
processes each chunk's frames inside the callback; concatenating the
per-chunk results gives the same list. -/
def textDeltas (dec : Str → Option UpEvent) (chunks : List Str) : List Str :=
  (streamFrames chunks).filterMap (processLine dec)

/-- `fullResponse` at stream end: the concatenation, in arrival order, of
every forwarded delta. -/
def AccumulatedText (dec : Str → Option UpEvent) (chunks : List Str) : Str :=
  (textDeltas dec chunks).flatten

/-- A JSON value inside a tool input map (`interface` values produced by
the opaque tool-call parser): either a string or an opaque non-string
value identified by its serialized form. -/
inductive JsonVal where
  | jstr (s : Str)
  | jraw (serialized : Str)
deriving DecidableEq

/-- A structured tool invocation returned by the opaque `tools.Parser`. -/
structure ToolInvocation where
  name : Str
  input : List (Str × JsonVal)
deriving DecidableEq

/-- An Anthropic content block (anthropic.go lines 48-54). -/
inductive ContentBlock where
  | text (text : Str)
  | toolUse (id : Str) (name : Str) (input : List (Str × JsonVal))
deriving DecidableEq

/-- One client-facing SSE event emitted by the streaming handler.  The
two delta constructors both stand for `content_block_delta` events, with
`text_delta` and `input_json_delta` payloads respectively. -/
inductive SSEEvent where
  | messageStart (id model : Str)
  | contentBlockStartText (idx : Nat)
  | contentBlockDelta (idx : Nat) (text : Str)
  | contentBlockStop (idx : Nat)
  | contentBlockStartTool (idx : Nat) (id name : Str)
  | inputJsonDelta (idx : Nat) (pjson : Str)
  | errorEvent (msg : Str)
  | messageDelta (stopReason : Str)
  | messageStop
deriving DecidableEq

/-- Go `strings.ReplaceAll` for a non-empty pattern (every caller below
passes a non-empty literal). -/
def replaceAll (l pat rep : Str) : Str :=
  if hp : pat = [] then l
  else
    match l with
    | [] => []
    | c :: cs =>
      if pat.isPrefixOf (c :: cs) then
        rep ++ replaceAll ((c :: cs).drop pat.length) pat rep
      else
        c :: replaceAll cs pat rep
termination_by l.length
decreasing_by
  · have hlen : 0 < pat.length := List.length_pos.mpr hp
    simp only [List.length_drop, List.length_cons]
    omega
  · simp

/-- `escapeJSON` (anthropic.go lines 398-405). -/
def escapeJSON (s : Str) : Str :=
  let s := replaceAll s ['\\'] ['\\', '\\']
  let s := replaceAll s ['"'] ['\\', '"']
  let s := replaceAll s ['\n'] ['\\', 'n']
  let s := replaceAll s ['\r'] ['\\', 'r']
  replaceAll s ['\t'] ['\\', 't']

/-- The error event written when the stream source reported an error
(anthropic.go lines 352-356); it precedes the block-0 stop event. -/
def errEvents : Option Str → List SSEEvent
  | some e => [SSEEvent.errorEvent e]
  | none => []

/-- The tool-call block triples of the streaming handler (anthropic.go
lines 370-385): the block for the `i`-th invocation (0-based) uses index
`i + 1`, a fresh id, and one `input_json_delta` carrying the escaped
marshalled input (`json.Marshal` abstracted as `marshal`). -/
def toolEvents (gen : Nat → Str) (marshal : List (Str × JsonVal) → Str) :
    Nat → List ToolInvocation → List SSEEvent
  | _, [] => []
  | i, call :: rest =>
    SSEEvent.contentBlockStartTool (i + 1) ("toolu_".data ++ gen i) call.name ::
    SSEEvent.inputJsonDelta (i + 1) (escapeJSON (marshal call.input)) ::
    SSEEvent.contentBlockStop (i + 1) ::
    toolEvents gen marshal (i + 1) rest

/-- `handleStream` (anthropic.go lines 291-395) as the ordered list of
client-facing events: message start, text block start at index 0, one
delta event per forwarded upstream delta, an error event when the stream
source reported one, text block stop, the tool block triples for the
invocations the parser finds in the accumulated text, and the terminal
message delta (with the chosen stop reason) and message stop. -/
def handleStream (dec : Str → Option UpEvent)
    (parse : Str → List ToolInvocation × Str)
    (marshal : List (Str × JsonVal) → Str)
    (msgId : Str) (gen : Nat → Str) (model : Str)
    (chunks : List Str) (streamErr : Option Str) : List SSEEvent :=
  let deltas := textDeltas dec chunks
  let responseText := deltas.flatten
  let toolCalls := (parse responseText).1
  let stopReason := if 0 < toolCalls.length then "tool_use".data else "end_turn".data
  SSEEvent.messageStart msgId model ::
  SSEEvent.contentBlockStartText 0 ::
  (deltas.map (SSEEvent.contentBlockDelta 0) ++
   errEvents streamErr ++
   (SSEEvent.contentBlockStop 0 ::
    (toolEvents gen marshal 0 toolCalls ++
     [SSEEvent.messageDelta stopReason, SSEEvent.messageStop])))

/-- `parseResponseToBlocks` (anthropic.go lines 462-538).  `parse` is the
opaque `toolParser.ParseToolCalls`, `exec` the opaque executor returning
captured output and an optional error, `gen` the `generateID` supply
(indexed by call site).  When the parser found nothing and the text is a
refusal with an extractable command, the executor is invoked with tool
name `bash` and input `command = cmd` and the synthesized triple is
returned, the executor outcome folded into the final text; otherwise the
remaining text (if non-empty) is followed by the structured tool-use
blocks, with a single text block carrying the original input as the
fallback when nothing was produced. -/
def parseResponseToBlocks (parse : Str → List ToolInvocation × Str)
    (exec : Str → List (Str × JsonVal) → Str × Option Str)
    (gen : Nat → Str) (text : Str) : List ContentBlock :=
  let toolCalls := (parse text).1
  let remainingText := (parse text).2
  let restBlocks :=
    (if remainingText ≠ [] then [ContentBlock.text remainingText] else []) ++
    (toolCalls.enum.map fun ic =>
      ContentBlock.toolUse ("toolu_".data ++ gen (1 + ic.1)) ic.2.name ic.2.input)
  let restBlocks := if restBlocks = [] then [ContentBlock.text text] else restBlocks
  if toolCalls.length = 0 ∧ DetectRefusal text = true then
    let cmd := ExtractCommandFromRefusal text
    if cmd ≠ [] then
      let r := exec "bash".data [("command".data, JsonVal.jstr cmd)]
      let resultText := match r.2 with | some e => e | none => r.1
      let statusText :=
        match r.2 with
        | some _ => "❌ 命令执行失败".data
        | none => "✅ 命令执行成功".data
      [ ContentBlock.text "正在执行命令...".data,
        ContentBlock.toolUse ("toolu_".data ++ gen 0) "bash".data
          [("command".data, JsonVal.jstr cmd)],
        ContentBlock.text ("\n\n".data ++ statusText ++ ":\n```\n".data ++
          resultText ++ "\n```".data) ]
    else restBlocks
  else restBlocks

/-- Is a block a `tool_use` block? -/
def isToolUse : ContentBlock → Bool
  | .toolUse .. => true
  | _ => false

/-- The stop-reason loop of `handleNonStream` (anthropic.go lines
442-448): `tool_use` as soon as some block is a tool-use block, else
`end_turn`. -/
def stopReasonOfBlocks (blocks : List ContentBlock) : Str :=
  if blocks.any isToolUse then "tool_use".data else "end_turn".data

/-- The response-text extraction of `handleNonStream` (anthropic.go lines
417-438): split the upstream payload into lines and run the same
per-line decode filter. -/
def responseTextOf (dec : Str → Option UpEvent) (result : Str) : Str :=
  ((splitLines result).filterMap (processLine dec)).flatten

/-- `handleNonStream` (anthropic.go lines 408-459) on a successful
upstream result: the content blocks and the stop reason of the JSON
response. -/
def handleNonStream (dec : Str → Option UpEvent)
    (parse : Str → List ToolInvocation × Str)
    (exec : Str → List (Str × JsonVal) → Str × Option Str)
    (gen : Nat → Str) (result : Str) : List ContentBlock × Str :=
  let blocks := parseResponseToBlocks parse exec gen (responseTextOf dec result)
  (blocks, stopReasonOfBlocks blocks)

/-! ### Views used to compare the two variants -/

/-- A content block up to the randomly generated id: type, text content,
tool name and tool input. -/
inductive BlockV where
  | vtext (content : Str)
  | vtool (name : Str) (input : List (Str × JsonVal))
deriving DecidableEq

/-- Forget the generated id of a block. -/
def viewOfBlock : ContentBlock → BlockV
  | .text s => .vtext s
  | .toolUse _ name input => .vtool name input

/-- The block sequence the streaming variant presents for an accumulated
text: the single text block at index 0 carrying the whole accumulated
text, followed by one tool-use block per structured invocation (the
streaming path has no refusal recovery).  `handleStream_blockSigs` below
ties this view to the events actually emitted by `handleStream`. -/
def streamBlocksView (parse : Str → List ToolInvocation × Str) (text : Str) :
    List BlockV :=
  BlockV.vtext text :: ((parse text).1.map fun c => BlockV.vtool c.name c.input)

/-- Type-and-name signature of a block. -/
inductive BlockSig where
  | sigText
  | sigTool (name : Str)
deriving DecidableEq

/-- The signature announced by a `content_block_start` event, if any. -/
def sigOfEvent : SSEEvent → Option BlockSig
  | .contentBlockStartText _ => some BlockSig.sigText
  | .contentBlockStartTool _ _ name => some (BlockSig.sigTool name)
  | _ => none

/-- The signature of each started block, in emission order, of an event
stream. -/
def eventBlockSigs (evs : List SSEEvent) : List BlockSig :=
  evs.filterMap sigOfEvent

/-- The signature of a block view. -/
def sigOfBlockV : BlockV → BlockSig
  | .vtext _ => .sigText
  | .vtool name _ => .sigTool name

/-! ### Reassembler lemmas -/

theorem splitLines_eq (l : Str) :
    splitLines l = (linesTail l).1 ++ [(linesTail l).2] := by
  induction l with
  | nil => rfl
  | cons c cs ih =>
    by_cases hc : c = '\n'
    · simp [splitLines, linesTail, hc, ih]
    · rcases h1 : (linesTail cs).1 with _ | ⟨x, xs⟩
      · simp [splitLines, linesTail, hc, ih, h1]
      · simp [splitLines, linesTail, hc, ih, h1]

theorem joinNl_linesTail (l : Str) :
    joinNl (linesTail l).1 ++ (linesTail l).2 = l := by
  induction l with
  | nil => rfl
  | cons c cs ih =>
    by_cases hc : c = '\n'
    · have hg : linesTail (c :: cs) = ([] :: (linesTail cs).1, (linesTail cs).2) := by
        simp [linesTail, hc]
      rw [hg]
      have hj : joinNl ([] :: (linesTail cs).1) = '\n' :: joinNl (linesTail cs).1 := by
        simp [joinNl]
      rw [hj, hc, List.cons_append, ih]
    · rcases h1 : (linesTail cs).1 with _ | ⟨x, xs⟩
      · have hg : linesTail (c :: cs) = ([], c :: (linesTail cs).2) := by
          simp [linesTail, hc, h1]
        rw [hg]
        rw [h1] at ih
        simp only [joinNl, List.map_nil, List.flatten_nil, List.nil_append] at ih ⊢
        rw [ih]
      · have hg : linesTail (c :: cs) = ((c :: x) :: xs, (linesTail cs).2) := by
          simp [linesTail, hc, h1]
        rw [hg]
        rw [h1] at ih
        have hj : joinNl ((c :: x) :: xs) = c :: joinNl (x :: xs) := by
          simp [joinNl]
        rw [hj, List.cons_append, ih]

theorem linesTail_append (a b : Str) :
    linesTail (a ++ b) =
      ((linesTail a).1 ++ (linesTail ((linesTail a).2 ++ b)).1,
       (linesTail ((linesTail a).2 ++ b)).2) := by
  induction a with
  | nil => simp [linesTail]
  | cons c cs ih =>
    by_cases hc : c = '\n'
    · simp [linesTail, hc, ih]
    · rcases h1 : (linesTail cs).1 with _ | ⟨x, xs⟩
      · have h0 : linesTail (cs ++ b) = linesTail ((linesTail cs).2 ++ b) := by
          rw [ih, h1]
          simp
        have hL : linesTail ((c :: cs) ++ b) =
            linesTail (c :: ((linesTail cs).2 ++ b)) := by
          rw [List.cons_append]
          show linesTail (c :: (cs ++ b)) = _
          simp only [linesTail, if_neg hc, h0]
        have hR : linesTail (c :: cs) = ([], c :: (linesTail cs).2) := by
          simp [linesTail, hc, h1]
        rw [hL, hR]
        simp only [List.nil_append, List.cons_append]
      · simp [List.cons_append, linesTail, if_neg hc, ih, h1]

theorem nl_not_mem_linesTail_tail (l : Str) : '\n' ∉ (linesTail l).2 := by
  induction l with
  | nil => simp [linesTail]
  | cons c cs ih =>
    by_cases hc : c = '\n'
    · simpa [linesTail, hc] using ih
    · rcases h1 : (linesTail cs).1 with _ | ⟨x, xs⟩
      · have hg : linesTail (c :: cs) = ([], c :: (linesTail cs).2) := by
          simp [linesTail, hc, h1]
        rw [hg]
        simp only [List.mem_cons, not_or]
        exact ⟨fun h => hc h.symm, ih⟩
      · simpa [linesTail, hc, h1] using ih

theorem linesTail_of_no_nl (l : Str) (h : '\n' ∉ l) : linesTail l = ([], l) := by
  induction l with
  | nil => rfl
  | cons c cs ih =>
    have hc : c ≠ '\n' := fun hcc => h (hcc ▸ List.mem_cons_self c cs)
    have ihs := ih (fun hm => h (List.mem_cons_of_mem c hm))
    simp [linesTail, hc, ihs]

theorem getLast_nl_iff (l : Str) :
    l.getLast? = some '\n' ↔ (linesTail l).2 = [] ∧ l ≠ [] := by
  induction l with
  | nil => simp [linesTail]
  | cons c cs ih =>
    rcases h : cs with _ | ⟨d, ds⟩
    · subst h
      by_cases hc : c = '\n'
      · simp [List.getLast?, hc, linesTail]
      · simp only [linesTail, if_neg hc]
        simp [List.getLast?, hc]
    · have hne : cs ≠ [] := by simp [h]
      rw [← h]
      have hgl : (c :: cs).getLast? = cs.getLast? := by
        rw [h]
        simp [List.getLast?_cons_cons]
      rw [hgl, ih]
      constructor
      · rintro ⟨ht, -⟩
        refine ⟨?_, by simp⟩
        by_cases hc : c = '\n'
        · simp [linesTail, hc, ht]
        · rcases h1 : (linesTail cs).1 with _ | ⟨x, xs⟩
          · exfalso
            have hj := joinNl_linesTail cs
            rw [h1, ht] at hj
            simp only [joinNl, List.map_nil, List.flatten_nil, List.nil_append,
              List.append_nil] at hj
            exact hne hj.symm
          · simp [linesTail, hc, h1, ht]
      · rintro ⟨ht, -⟩
        refine ⟨?_, hne⟩
        by_cases hc : c = '\n'
        · simpa [linesTail, hc] using ht
        · rcases h1 : (linesTail cs).1 with _ | ⟨x, xs⟩
          · simp [linesTail, hc, h1] at ht
          · simpa [linesTail, hc, h1] using ht

/-- What one `feed` call really does, in terms of the canonical line
decomposition: the new pending buffer is always the terminator-less tail
of the whole content, and the returned frames are the closed lines —
plus one artifact empty frame when the content ended in a terminator
(Go `strings.Split` then produces a trailing empty segment that is kept
in the processed lines). -/
theorem feed_spec (p c : Str) :
    (feed p c).1 = (linesTail (p ++ c)).2 ∧
    ((feed p c).2 = (linesTail (p ++ c)).1 ∨
     ((feed p c).2 = (linesTail (p ++ c)).1 ++ [[]] ∧
      (linesTail (p ++ c)).2 = [])) := by
  unfold feed
  by_cases hcond : (p ++ c).getLast? ≠ some '\n' ∧ 0 < (splitLines (p ++ c)).length
  · rw [if_pos hcond]
    rw [splitLines_eq]
    constructor
    · simp [List.getLastD_concat]
    · left
      simp [List.dropLast_concat]
  · rw [if_neg hcond]
    have hlen : 0 < (splitLines (p ++ c)).length := by
      rw [splitLines_eq]
      simp
    have hnl : (p ++ c).getLast? = some '\n' := by
      by_contra hne
      exact hcond ⟨hne, hlen⟩
    have ht := (getLast_nl_iff (p ++ c)).mp hnl
    refine ⟨ht.1.symm, Or.inr ⟨?_, ht.1⟩⟩
    rw [splitLines_eq, ht.1]

/-- Cumulative reassembler invariant: starting from a newline-free
pending buffer, the final pending buffer is the terminator-less tail of
everything fed, and — discarding the artifact empty frames — the frames
emitted are exactly the closed lines of everything fed, in order. -/
theorem feedAll_spec (cs : List Str) (p : Str) (hp : '\n' ∉ p) :
    (feedAll p cs).1 = (linesTail (p ++ cs.flatten)).2 ∧
    ((feedAll p cs).2.filter (fun s => !s.isEmpty)) =
      ((linesTail (p ++ cs.flatten)).1.filter (fun s => !s.isEmpty)) := by
  induction cs generalizing p with
  | nil =>
    rw [linesTail_of_no_nl _ (by simpa using hp)]
    constructor <;> simp [feedAll]
  | cons c cs ih =>
    have hfc := feed_spec p c
    have hp1 : '\n' ∉ (feed p c).1 := by
      rw [hfc.1]
      exact nl_not_mem_linesTail_tail _
    have hrest := ih (feed p c).1 hp1
    have happ := linesTail_append (p ++ c) cs.flatten
    have hflat : p ++ (c :: cs).flatten = (p ++ c) ++ cs.flatten := by
      simp [List.flatten_cons]
    constructor
    · show (feedAll (feed p c).1 cs).1 = _
      rw [hrest.1, hfc.1, hflat, happ]
    · show ((feed p c).2 ++ (feedAll (feed p c).1 cs).2).filter _ = _
      rw [List.filter_append, hrest.2, hfc.1, hflat, happ]
      have hfc2 : ((feed p c).2.filter (fun s => !s.isEmpty)) =
          ((linesTail (p ++ c)).1.filter (fun s => !s.isEmpty)) := by
        rcases hfc.2 with h | ⟨h, -⟩
        · rw [h]
        · rw [h, List.filter_append]
          simp
      rw [hfc2, ← List.filter_append]

/-! ### Event-stream extraction helpers -/

/-- The text payloads of the `content_block_delta` events for block 0,
in emission order. -/
def block0DeltaOf : SSEEvent → Option Str
  | .contentBlockDelta 0 t => some t
  | _ => none

/-- The index carried by a `content_block_start` event. -/
def startIdxOf : SSEEvent → Option Nat
  | .contentBlockStartText i => some i
  | .contentBlockStartTool i _ _ => some i
  | _ => none

/-- The index carried by a `content_block_stop` event. -/
def stopIdxOf : SSEEvent → Option Nat
  | .contentBlockStop i => some i
  | _ => none

/-- The index carried by a `content_block_delta` event (text delta or
input-JSON delta). -/
def deltaIdxOf : SSEEvent → Option Nat
  | .contentBlockDelta i _ => some i
  | .inputJsonDelta i _ => some i
  | _ => none

/-- Is this the start of a tool-use block? -/
def isToolStart : SSEEvent → Bool
  | .contentBlockStartTool .. => true
  | _ => false

/-- The stop reason carried by a `message_delta` event. -/
def stopReasonOf : SSEEvent → Option Str
  | .messageDelta r => some r
  | _ => none

theorem toolEvents_block0Delta (gen : Nat → Str)
    (marshal : List (Str × JsonVal) → Str) (calls : List ToolInvocation) :
    ∀ i, (toolEvents gen marshal i calls).filterMap block0DeltaOf = [] := by
  induction calls with
  | nil => intro i; rfl
  | cons call rest ih =>
    intro i
    simp only [toolEvents, List.filterMap_cons]
    exact ih (i + 1)

theorem toolEvents_startIdxs (gen : Nat → Str)
    (marshal : List (Str × JsonVal) → Str) (calls : List ToolInvocation) :
    ∀ i, (toolEvents gen marshal i calls).filterMap startIdxOf =
      List.range' (i + 1) calls.length := by
  induction calls with
  | nil => intro i; rfl
  | cons call rest ih =>
    intro i
    simp only [toolEvents, List.filterMap_cons, startIdxOf, List.length_cons,
      List.range'_succ]
    exact congrArg _ (ih (i + 1))

theorem toolEvents_stopIdxs (gen : Nat → Str)
    (marshal : List (Str × JsonVal) → Str) (calls : List ToolInvocation) :
    ∀ i, (toolEvents gen marshal i calls).filterMap stopIdxOf =
      List.range' (i + 1) calls.length := by
  induction calls with
  | nil => intro i; rfl
  | cons call rest ih =>
    intro i
    simp only [toolEvents, List.filterMap_cons, stopIdxOf, List.length_cons,
      List.range'_succ]
    exact congrArg _ (ih (i + 1))

theorem toolEvents_deltaIdxs (gen : Nat → Str)
    (marshal : List (Str × JsonVal) → Str) (calls : List ToolInvocation) :
    ∀ i, (toolEvents gen marshal i calls).filterMap deltaIdxOf =
      List.range' (i + 1) calls.length := by
  induction calls with
  | nil => intro i; rfl
  | cons call rest ih =>
    intro i
    simp only [toolEvents, List.filterMap_cons, deltaIdxOf, List.length_cons,
      List.range'_succ]
    exact congrArg _ (ih (i + 1))

theorem toolEvents_sigs (gen : Nat → Str)
    (marshal : List (Str × JsonVal) → Str) (calls : List ToolInvocation) :
    ∀ i, (toolEvents gen marshal i calls).filterMap sigOfEvent =
      calls.map (fun c => BlockSig.sigTool c.name) := by
  induction calls with
  | nil => intro i; rfl
  | cons call rest ih =>
    intro i
    simp only [toolEvents, List.filterMap_cons, List.map_cons, sigOfEvent]
    exact congrArg _ (ih (i + 1))

theorem toolEvents_no_idx_zero (gen : Nat → Str)
    (marshal : List (Str × JsonVal) → Str) (calls : List ToolInvocation) :
    ∀ i e, e ∈ toolEvents gen marshal i calls →
      startIdxOf e ≠ some 0 ∧ stopIdxOf e ≠ some 0 ∧ deltaIdxOf e ≠ some 0 := by
  induction calls with
  | nil => intro i e he; cases he
  | cons call rest ih =>
    intro i e he
    rcases he with _ | ⟨_, _ | ⟨_, _ | ⟨_, hmem⟩⟩⟩
    · exact ⟨by simp [startIdxOf], by simp [stopIdxOf], by simp [deltaIdxOf]⟩
    · exact ⟨by simp [startIdxOf], by simp [stopIdxOf], by simp [deltaIdxOf]⟩
    · exact ⟨by simp [startIdxOf], by simp [stopIdxOf], by simp [deltaIdxOf]⟩
    · exact ih (i + 1) e hmem

theorem toolEvents_toolStart_exists (gen : Nat → Str)
    (marshal : List (Str × JsonVal) → Str) (calls : List ToolInvocation) :
    ∀ i, (∃ e ∈ toolEvents gen marshal i calls, isToolStart e = true) ↔
      calls ≠ [] := by
  intro i
  cases calls with
  | nil => simp [toolEvents]
  | cons call rest =>
    simp only [ne_eq, reduceCtorEq, not_false_eq_true, iff_true]
    exact ⟨_, List.mem_cons_self _ _, rfl⟩

theorem toolEvents_stopReason (gen : Nat → Str)
    (marshal : List (Str × JsonVal) → Str) (calls : List ToolInvocation) :
    ∀ i, (toolEvents gen marshal i calls).filterMap stopReasonOf = [] := by
  induction calls with
  | nil => intro i; rfl
  | cons call rest ih =>
    intro i
    simp only [toolEvents, List.filterMap_cons]
    exact ih (i + 1)

theorem map_delta_filterMap_block0 (ds : List Str) :
    (ds.map (SSEEvent.contentBlockDelta 0)).filterMap block0DeltaOf = ds := by
  induction ds with
  | nil => rfl
  | cons d ds ih => simp [List.filterMap_cons, block0DeltaOf, ih]

theorem map_delta_filterMap_deltaIdx (ds : List Str) :
    (ds.map (SSEEvent.contentBlockDelta 0)).filterMap deltaIdxOf =
      List.replicate ds.length 0 := by
  induction ds with
  | nil => rfl
  | cons d ds ih => simp [List.filterMap_cons, deltaIdxOf, ih, List.replicate_succ]

theorem errEvents_filterMap_none {γ : Type} (streamErr : Option Str)
    (f : SSEEvent → Option γ) (hf : ∀ m, f (SSEEvent.errorEvent m) = none) :
    (errEvents streamErr).filterMap f = [] := by
  cases streamErr with
  | none => rfl
  | some e => simp [errEvents, List.filterMap_cons, hf]

theorem errEvents_not_toolStart (streamErr : Option Str) (e : SSEEvent)
    (he : e ∈ errEvents streamErr) : isToolStart e = false := by
  cases streamErr with
  | none => cases he
  | some m =>
    rcases he with _ | ⟨_, h⟩
    · rfl
    · cases h

/-! ## Claim theorems -/

/-- C4: for every upstream chunk sequence (and every decoder, since
`json.Unmarshal` is opaque), the texts of the emitted
`content_block_delta` events for block 0, in emission order, are exactly
the non-empty `text-delta` deltas in arrival order — one event per delta,
verbatim, with no loss, duplication, batching or reordering — and their
concatenation is the accumulated text used by all later processing. -/
theorem c4_delta_passthrough (dec : Str → Option UpEvent)
    (parse : Str → List ToolInvocation × Str)
    (marshal : List (Str × JsonVal) → Str) (msgId : Str) (gen : Nat → Str)
    (model : Str) (chunks : List Str) (streamErr : Option Str) :
    (handleStream dec parse marshal msgId gen model chunks
        streamErr).filterMap block0DeltaOf = textDeltas dec chunks ∧
    ((handleStream dec parse marshal msgId gen model chunks
        streamErr).filterMap block0DeltaOf).flatten = AccumulatedText dec chunks := by
  have h1 : (handleStream dec parse marshal msgId gen model chunks
      streamErr).filterMap block0DeltaOf = textDeltas dec chunks := by
    simp only [handleStream, List.filterMap_cons, List.filterMap_append,
      map_delta_filterMap_block0, toolEvents_block0Delta]
    rw [errEvents_filterMap_none streamErr block0DeltaOf (fun m => rfl)]
    simp [block0DeltaOf]
  exact ⟨h1, by rw [h1]; rfl⟩

/-- C5: for every streaming response the emitted block-start indices are
exactly `0, 1, 2, …` with no gaps or reuse (likewise the block-stop
indices), every `content_block_delta` event carries index 0 until the
text block is closed and then exactly the fresh tool indices `1 … n`,
index 0 is the text block, and every tool-use block event appears only
after the stop event of block 0, never reusing index 0. -/
theorem c5_block_indices (dec : Str → Option UpEvent)
    (parse : Str → List ToolInvocation × Str)
    (marshal : List (Str × JsonVal) → Str) (msgId : Str) (gen : Nat → Str)
    (model : Str) (chunks : List Str) (streamErr : Option Str) :
    (handleStream dec parse marshal msgId gen model chunks
        streamErr).filterMap startIdxOf =
      List.range ((parse (AccumulatedText dec chunks)).1.length + 1) ∧
    (handleStream dec parse marshal msgId gen model chunks
        streamErr).filterMap stopIdxOf =
      List.range ((parse (AccumulatedText dec chunks)).1.length + 1) ∧
    (handleStream dec parse marshal msgId gen model chunks
        streamErr).filterMap deltaIdxOf =
      List.replicate (textDeltas dec chunks).length 0 ++
        List.range' 1 (parse (AccumulatedText dec chunks)).1.length ∧
    ∃ pre post,
      handleStream dec parse marshal msgId gen model chunks streamErr =
        pre ++ SSEEvent.contentBlockStop 0 :: post ∧
      (∀ e ∈ pre, isToolStart e = false) ∧
      (∀ e ∈ post,
        startIdxOf e ≠ some 0 ∧ stopIdxOf e ≠ some 0 ∧ deltaIdxOf e ≠ some 0) := by
  have hrange : List.range ((parse (AccumulatedText dec chunks)).1.length + 1) =
      0 :: List.range' 1 (parse (AccumulatedText dec chunks)).1.length := by
    rw [List.range_eq_range', List.range'_succ]
  refine ⟨?_, ?_, ?_, ?_⟩
  · simp only [handleStream, List.filterMap_cons, List.filterMap_append,
      toolEvents_startIdxs, hrange]
    rw [errEvents_filterMap_none streamErr startIdxOf (fun m => rfl)]
    have hmap : ((textDeltas dec chunks).map
        (SSEEvent.contentBlockDelta 0)).filterMap startIdxOf = [] := by
      rw [List.filterMap_map]
      simp [Function.comp, startIdxOf]
    rw [hmap]
    simp [startIdxOf, stopIdxOf, AccumulatedText]
  · simp only [handleStream, List.filterMap_cons, List.filterMap_append,
      toolEvents_stopIdxs, hrange]
    rw [errEvents_filterMap_none streamErr stopIdxOf (fun m => rfl)]
    have hmap : ((textDeltas dec chunks).map
        (SSEEvent.contentBlockDelta 0)).filterMap stopIdxOf = [] := by
      rw [List.filterMap_map]
      simp [Function.comp, stopIdxOf]
    rw [hmap]
    simp [stopIdxOf, AccumulatedText]
  · simp only [handleStream, List.filterMap_cons, List.filterMap_append,
      toolEvents_deltaIdxs, map_delta_filterMap_deltaIdx]
    rw [errEvents_filterMap_none streamErr deltaIdxOf (fun m => rfl)]
    simp [deltaIdxOf, AccumulatedText]
  · refine ⟨SSEEvent.messageStart msgId model ::
      SSEEvent.contentBlockStartText 0 ::
      ((textDeltas dec chunks).map (SSEEvent.contentBlockDelta 0) ++
        errEvents streamErr),
      toolEvents gen marshal 0 (parse (AccumulatedText dec chunks)).1 ++
        [SSEEvent.messageDelta (if 0 <
            (parse (AccumulatedText dec chunks)).1.length
          then "tool_use".data else "end_turn".data), SSEEvent.messageStop],
      ?_, ?_, ?_⟩
    · simp [handleStream, AccumulatedText]
    · intro e he
      rcases he with _ | ⟨_, he⟩
      · rfl
      rcases he with _ | ⟨_, he⟩
      · rfl
      rcases List.mem_append.mp he with hm | hm
      · rcases List.mem_map.mp hm with ⟨d, -, rfl⟩
        rfl
      · exact errEvents_not_toolStart streamErr e hm
    · intro e he
      rcases List.mem_append.mp he with hm | hm
      · exact toolEvents_no_idx_zero gen marshal _ 0 e hm
      · rcases hm with _ | ⟨_, hm⟩
        · exact ⟨by simp [startIdxOf], by simp [stopIdxOf], by simp [deltaIdxOf]⟩
        rcases hm with _ | ⟨_, hm⟩
        · exact ⟨by simp [startIdxOf], by simp [stopIdxOf], by simp [deltaIdxOf]⟩
        · cases hm

theorem toolEvents_any_toolStart (gen : Nat → Str)
    (marshal : List (Str × JsonVal) → Str) (calls : List ToolInvocation) :
    ∀ i, (toolEvents gen marshal i calls).any isToolStart = !calls.isEmpty := by
  induction calls with
  | nil => intro i; rfl
  | cons call rest ih => intro i; simp [toolEvents, isToolStart]

theorem errEvents_any_toolStart (streamErr : Option Str) :
    (errEvents streamErr).any isToolStart = false := by
  cases streamErr <;> simp [errEvents, isToolStart]

theorem mapDelta_any_toolStart (ds : List Str) :
    (ds.map (SSEEvent.contentBlockDelta 0)).any isToolStart = false := by
  induction ds with
  | nil => rfl
  | cons d ds ih => simp [isToolStart, ih]

theorem handleStream_stopReasons (dec : Str → Option UpEvent)
    (parse : Str → List ToolInvocation × Str)
    (marshal : List (Str × JsonVal) → Str) (msgId : Str) (gen : Nat → Str)
    (model : Str) (chunks : List Str) (streamErr : Option Str) :
    (handleStream dec parse marshal msgId gen model chunks
        streamErr).filterMap stopReasonOf =
      [if 0 < (parse (AccumulatedText dec chunks)).1.length
       then "tool_use".data else "end_turn".data] := by
  simp only [handleStream, List.filterMap_cons, List.filterMap_append,
    toolEvents_stopReason]
  rw [errEvents_filterMap_none streamErr stopReasonOf (fun m => rfl)]
  have hmap : ((textDeltas dec chunks).map
      (SSEEvent.contentBlockDelta 0)).filterMap stopReasonOf = [] := by
    rw [List.filterMap_map]
    simp [Function.comp, stopReasonOf]
  rw [hmap]
  simp [stopReasonOf, AccumulatedText]

theorem handleStream_any_toolStart (dec : Str → Option UpEvent)
    (parse : Str → List ToolInvocation × Str)
    (marshal : List (Str × JsonVal) → Str) (msgId : Str) (gen : Nat → Str)
    (model : Str) (chunks : List Str) (streamErr : Option Str) :
    (handleStream dec parse marshal msgId gen model chunks
        streamErr).any isToolStart =
      !(parse (AccumulatedText dec chunks)).1.isEmpty := by
  simp only [handleStream, List.any_cons, List.any_append,
    toolEvents_any_toolStart, errEvents_any_toolStart, mapDelta_any_toolStart]
  simp [isToolStart, AccumulatedText]

/-- C3: the stop reason is `tool_use` exactly when at least one tool-use
block was emitted, and `end_turn` exactly otherwise — in the streaming
variant (the single `message_delta` event of the stream) and in the
non-streaming variant (the `stop_reason` field computed from the content
blocks, which include any block synthesized by the recovery fallback). -/
theorem c3_stop_reason (dec : Str → Option UpEvent)
    (parse : Str → List ToolInvocation × Str)
    (marshal : List (Str × JsonVal) → Str) (msgId : Str) (gen : Nat → Str)
    (model : Str) (chunks : List Str) (streamErr : Option Str)
    (exec : Str → List (Str × JsonVal) → Str × Option Str) (result : Str) :
    ((handleStream dec parse marshal msgId gen model chunks
          streamErr).filterMap stopReasonOf = ["tool_use".data] ↔
      ∃ e ∈ handleStream dec parse marshal msgId gen model chunks streamErr,
        isToolStart e = true) ∧
    ((handleStream dec parse marshal msgId gen model chunks
          streamErr).filterMap stopReasonOf = ["end_turn".data] ↔
      ¬ ∃ e ∈ handleStream dec parse marshal msgId gen model chunks streamErr,
        isToolStart e = true) ∧
    ((handleNonStream dec parse exec gen result).2 = "tool_use".data ↔
      ∃ b ∈ (handleNonStream dec parse exec gen result).1, isToolUse b = true) ∧
    ((handleNonStream dec parse exec gen result).2 = "end_turn".data ↔
      ¬ ∃ b ∈ (handleNonStream dec parse exec gen result).1, isToolUse b = true) := by
  have hne : "tool_use".data ≠ "end_turn".data := by decide
  have hsr := handleStream_stopReasons dec parse marshal msgId gen model chunks streamErr
  have hany := handleStream_any_toolStart dec parse marshal msgId gen model chunks streamErr
  have hexi : (∃ e ∈ handleStream dec parse marshal msgId gen model chunks streamErr,
      isToolStart e = true) ↔
      (handleStream dec parse marshal msgId gen model chunks
        streamErr).any isToolStart = true := (List.any_eq_true).symm
  refine ⟨?_, ?_, ?_, ?_⟩
  · rw [hsr, hexi, hany]
    by_cases hc : (parse (AccumulatedText dec chunks)).1.isEmpty
    · have h0 : ¬ 0 < (parse (AccumulatedText dec chunks)).1.length := by
        simp [List.isEmpty_iff] at hc
        simp [hc]
      simp [if_neg h0, hc, hne.symm]
    · have h0 : 0 < (parse (AccumulatedText dec chunks)).1.length := by
        simp [List.isEmpty_iff] at hc
        simpa [List.length_pos] using hc
      simp [if_pos h0, hc]
  · rw [hsr, hexi, hany]
    by_cases hc : (parse (AccumulatedText dec chunks)).1.isEmpty
    · have h0 : ¬ 0 < (parse (AccumulatedText dec chunks)).1.length := by
        simp [List.isEmpty_iff] at hc
        simp [hc]
      simp [if_neg h0, hc]
    · have h0 : 0 < (parse (AccumulatedText dec chunks)).1.length := by
        simp [List.isEmpty_iff] at hc
        simpa [List.length_pos] using hc
      simp [if_pos h0, hc, hne]
  · have hsnd : (handleNonStream dec parse exec gen result).2 =
        stopReasonOfBlocks (handleNonStream dec parse exec gen result).1 := rfl
    rw [hsnd, stopReasonOfBlocks]
    have hext : (∃ b ∈ (handleNonStream dec parse exec gen result).1,
        isToolUse b = true) ↔
        (handleNonStream dec parse exec gen result).1.any isToolUse = true := by
      rw [List.any_eq_true]
    rw [hext]
    by_cases hb : (handleNonStream dec parse exec gen result).1.any isToolUse = true
    · rw [if_pos hb]
      exact ⟨fun _ => hb, fun _ => rfl⟩
    · rw [if_neg hb]
      exact ⟨fun h => absurd h hne.symm, fun h => absurd h hb⟩
  · have hsnd : (handleNonStream dec parse exec gen result).2 =
        stopReasonOfBlocks (handleNonStream dec parse exec gen result).1 := rfl
    rw [hsnd, stopReasonOfBlocks]
    have hext : (∃ b ∈ (handleNonStream dec parse exec gen result).1,
        isToolUse b = true) ↔
        (handleNonStream dec parse exec gen result).1.any isToolUse = true := by
      rw [List.any_eq_true]
    rw [hext]
    by_cases hb : (handleNonStream dec parse exec gen result).1.any isToolUse = true
    · rw [if_pos hb]
      exact ⟨fun h => absurd h hne, fun h => absurd hb h⟩
    · rw [if_neg hb]
      exact ⟨fun _ => hb, fun _ => rfl⟩

/-- C8: `DetectRefusal` is deterministic (it is a pure function of the
text), returns true iff the text contains — case-insensitively — at
least one phrase of the fixed refusal set, depends only on the
lowercased text, and is monotone under substring containment: a
superstring of a refusal-classified text is refusal-classified. -/
theorem c8_isRefusal_spec :
    (∀ t, DetectRefusal t = true ↔
      ∃ p ∈ refusalPatterns, lowerL p <:+: lowerL t) ∧
    (∀ t u, lowerL t = lowerL u → DetectRefusal t = DetectRefusal u) ∧
    (∀ t t', DetectRefusal t = true → t <:+: t' → DetectRefusal t' = true) := by
  have h1 : ∀ t, DetectRefusal t = true ↔
      ∃ p ∈ refusalPatterns, lowerL p <:+: lowerL t := by
    intro t
    simp only [DetectRefusal, List.any_eq_true, containsSub_iff]
  refine ⟨h1, ?_, ?_⟩
  · intro t u h
    simp only [DetectRefusal]
    rw [h]
  · intro t t' hd hsub
    rw [h1] at hd ⊢
    obtain ⟨p, hp, hinf⟩ := hd
    exact ⟨p, hp, hinf.trans (List.IsInfix.map Char.toLower hsub)⟩

/-- Witness for C8: applies the monotonicity part at a concrete refusal
text and a concrete superstring. -/
theorem c8_isRefusal_spec_witness :
    DetectRefusal ("I can".data ++ [apos] ++ "t".data) = true ∧
    DetectRefusal ("Well, I can".data ++ [apos] ++ "t do that".data) = true :=
  ⟨by decide,
   c8_isRefusal_spec.2.2 ("I can".data ++ [apos] ++ "t".data)
     ("Well, I can".data ++ [apos] ++ "t do that".data) (by decide)
     (by decide)⟩

/-- Counterexample to C9 as stated: on a text matched both by a
create-file pattern and by a read-file pattern, the first pattern of the
ordered candidate list (a create pattern) does not determine the result —
the code's later read-file group overwrites the action. -/
theorem c9_counterexample :
    ParseUserIntentAction ["create file read file".data] = "read_file".data ∧
    firstMatchAction ["create file read file".data] = "create_file".data ∧
    ParseUserIntentAction ["create file read file".data] ≠
      firstMatchAction ["create file read file".data] :=
  ⟨by decide, by decide, by decide⟩

theorem actionOf_find?_group (l : List GoPat) (a : Str)
    (rest : List (GoPat × Str)) (text : Str) :
    actionOf (((l.map (fun p => (p, a))) ++ rest).find?
        (fun pr => matchGoPat pr.1 text)) =
      if l.any (fun p => matchGoPat p text) = true then a
      else actionOf (rest.find? (fun pr => matchGoPat pr.1 text)) := by
  induction l with
  | nil => simp
  | cons p ps ih =>
    simp only [List.map_cons, List.cons_append, List.find?_cons, List.any_cons]
    by_cases hm : matchGoPat p text = true
    · simp [hm, actionOf]
    · have hm' : matchGoPat p text = false := by simpa using hm
      simp only [hm', Bool.false_or]
      exact ih

/-- C9 (amended): the action is determined by the first matching pattern
in the REVERSED candidate order — run-command patterns, then read-file
patterns, then create-file patterns — because each later group of the
code overwrites the action chosen by an earlier group; when no pattern
matches the action is empty, and the classifier is a total function, so
no input makes it fail. -/
theorem c9_action_priority (messages : List Str) :
    ParseUserIntentAction messages = lastGroupFirstMatchAction messages ∧
    ((createPatterns ++ readPatterns ++ runPatterns).all
        (fun p => !matchGoPat p (guessActionText messages)) = true →
      ParseUserIntentAction messages = []) := by
  constructor
  · rw [lastGroupFirstMatchAction, actionOf_find?_group, actionOf_find?_group]
    have h3 := actionOf_find?_group createPatterns "create_file".data []
      (guessActionText messages)
    rw [List.append_nil] at h3
    rw [h3]
    simp [List.find?_nil, actionOf, ParseUserIntentAction]
  · intro hall
    simp only [List.all_append, Bool.and_eq_true, List.all_eq_true] at hall
    have h1 : createPatterns.any
        (fun p => matchGoPat p (guessActionText messages)) = false := by
      rw [List.any_eq_false]
      intro p hp
      simpa using hall.1.1 p hp
    have h2 : readPatterns.any
        (fun p => matchGoPat p (guessActionText messages)) = false := by
      rw [List.any_eq_false]
      intro p hp
      simpa using hall.1.2 p hp
    have h3 : runPatterns.any
        (fun p => matchGoPat p (guessActionText messages)) = false := by
      rw [List.any_eq_false]
      intro p hp
      simpa using hall.2 p hp
    simp [ParseUserIntentAction, h1, h2, h3]

/-- Witness for C9: on a message matching no action pattern the
classifier returns the empty action. -/
theorem c9_action_priority_witness :
    (createPatterns ++ readPatterns ++ runPatterns).all
      (fun p => !matchGoPat p (guessActionText ["hello there".data])) = true ∧
    ParseUserIntentAction ["hello there".data] = [] :=
  ⟨by decide, (c9_action_priority ["hello there".data]).2 (by decide)⟩

/-- Shared helper: when the parser returns zero invocations with the text
unchanged and no recovery fires, the text is emitted as the single
block. -/
theorem parseResponseToBlocks_text_asis (parse : Str → List ToolInvocation × Str)
    (exec : Str → List (Str × JsonVal) → Str × Option Str)
    (gen : Nat → Str) (text : Str)
    (h1 : (parse text).1 = []) (h2 : (parse text).2 = text)
    (hnr : DetectRefusal text = false ∨ ExtractCommandFromRefusal text = []) :
    parseResponseToBlocks parse exec gen text = [ContentBlock.text text] := by
  rcases hnr with hd | hcmd
  · simp only [parseResponseToBlocks, h1, h2]
    rw [if_neg (fun hcon => by rw [hd] at hcon; cases hcon.2)]
    by_cases ht : text = [] <;> simp [ht]
  · simp only [parseResponseToBlocks, h1, h2]
    by_cases hd : DetectRefusal text = true
    · rw [if_pos ⟨rfl, hd⟩, if_neg (by simpa using hcmd)]
      by_cases ht : text = [] <;> simp [ht]
    · rw [if_neg (fun hcon => hd hcon.2)]
      by_cases ht : text = [] <;> simp [ht]

/-- C2: when the parser returns zero invocations, the text is classified
as a refusal, and a non-empty command `c` is extracted, the recovery
orchestrator produces exactly the triple text, tool_use with name `bash`
and input `command = c`, text — the final text carrying the success
marker and the captured output on executor success, and the failure
marker with the error text substituted for the output on executor
failure; an executor failure is folded into the content (the function
still returns blocks, never a request failure).  When the text is not a
refusal, or no command is extracted, no recovery occurs and the text is
emitted as-is. -/
theorem c2_recovery_orchestrator (parse : Str → List ToolInvocation × Str)
    (exec : Str → List (Str × JsonVal) → Str × Option Str)
    (gen : Nat → Str) (text : Str) (h1 : (parse text).1 = []) :
    (DetectRefusal text = true →
      ExtractCommandFromRefusal text ≠ [] →
      parseResponseToBlocks parse exec gen text =
        [ContentBlock.text "正在执行命令...".data,
         ContentBlock.toolUse ("toolu_".data ++ gen 0) "bash".data
           [("command".data, JsonVal.jstr (ExtractCommandFromRefusal text))],
         ContentBlock.text ("\n\n".data ++
           (match (exec "bash".data
               [("command".data, JsonVal.jstr (ExtractCommandFromRefusal text))]).2 with
            | some _ => "❌ 命令执行失败".data
            | none => "✅ 命令执行成功".data) ++ ":\n```\n".data ++
           (match (exec "bash".data
               [("command".data, JsonVal.jstr (ExtractCommandFromRefusal text))]).2 with
            | some e => e
            | none => (exec "bash".data
               [("command".data,
                 JsonVal.jstr (ExtractCommandFromRefusal text))]).1) ++
           "\n```".data)]) ∧
    ((parse text).2 = text →
      (DetectRefusal text = false ∨ ExtractCommandFromRefusal text = []) →
      parseResponseToBlocks parse exec gen text = [ContentBlock.text text]) := by
  constructor
  · intro hd hc
    simp only [parseResponseToBlocks, h1]
    rw [if_pos ⟨rfl, hd⟩, if_pos hc]
  · intro h2 hnr
    exact parseResponseToBlocks_text_asis parse exec gen text h1 h2 hnr

/-- A parser instance returning zero invocations and the text unchanged. -/
def parse0 : Str → List ToolInvocation × Str := fun t => ([], t)

/-- An executor instance that always succeeds with output `done`. -/
def exec0 : Str → List (Str × JsonVal) → Str × Option Str :=
  fun _ _ => ("done".data, none)

/-- A fixed id supply. -/
def gen0 : Nat → Str := fun _ => "g".data

/-- A refusal text with an extractable fenced shell command. -/
def text0 : Str :=
  "I can".data ++ [apos] ++ "t do that.\n```bash\nls -la\n```".data

/-- Witness for C2: the recovery triple on a concrete refusal with a
fenced `ls -la` command and an always-succeeding executor. -/
theorem c2_recovery_orchestrator_witness :
    DetectRefusal text0 = true ∧
    parseResponseToBlocks parse0 exec0 gen0 text0 =
      [ContentBlock.text "正在执行命令...".data,
       ContentBlock.toolUse ("toolu_".data ++ gen0 0) "bash".data
         [("command".data, JsonVal.jstr "ls -la".data)],
       ContentBlock.text ("\n\n".data ++ "✅ 命令执行成功".data ++
         ":\n```\n".data ++ "done".data ++ "\n```".data)] := by
  have h := (c2_recovery_orchestrator parse0 exec0 gen0 text0 rfl).1
    (by decide) (by decide)
  rw [show ExtractCommandFromRefusal text0 = "ls -la".data from by decide] at h
  exact ⟨by decide, h⟩

/-- C10: the non-streaming block constructor never returns an empty
block list — and when the parser returns zero invocations with empty
remaining text and no recovery fires, a single text block carrying the
original input text (even the empty string) is the fallback. -/
theorem c10_nonempty_blocks (parse : Str → List ToolInvocation × Str)
    (exec : Str → List (Str × JsonVal) → Str × Option Str)
    (gen : Nat → Str) (text : Str) :
    parseResponseToBlocks parse exec gen text ≠ [] ∧
    ((parse text).1 = [] → (parse text).2 = [] →
      (DetectRefusal text = false ∨ ExtractCommandFromRefusal text = []) →
      parseResponseToBlocks parse exec gen text = [ContentBlock.text text]) := by
  constructor
  · simp only [parseResponseToBlocks]
    split
    · split
      · simp
      · split
        · simp
        · split
          · simp
          · assumption
    · split
      · simp
      · split
        · simp
        · assumption
  · intro h1 h2 hnr
    rcases hnr with hd | hcmd
    · simp only [parseResponseToBlocks, h1, h2]
      rw [if_neg (fun hcon => by rw [hd] at hcon; cases hcon.2)]
      simp
    · simp only [parseResponseToBlocks, h1, h2]
      by_cases hd : DetectRefusal text = true
      · rw [if_pos ⟨rfl, hd⟩, if_neg (by simpa using hcmd)]
        simp
      · rw [if_neg (fun hcon => hd hcon.2)]
        simp

/-- A parser instance returning zero invocations and empty remaining
text. -/
def parseEmpty : Str → List ToolInvocation × Str := fun _ => ([], [])

/-- Witness for C10: on the empty input text with a parser returning
nothing, the fallback single text block is produced. -/
theorem c10_nonempty_blocks_witness :
    DetectRefusal [] = false ∧
    parseResponseToBlocks parseEmpty exec0 gen0 [] ≠ [] ∧
    parseResponseToBlocks parseEmpty exec0 gen0 [] = [ContentBlock.text []] := by
  have h := c10_nonempty_blocks parseEmpty exec0 gen0 []
  exact ⟨by decide, h.1, h.2 rfl rfl (Or.inl (by decide))⟩

/-- Grounding of `streamBlocksView`: the blocks the streaming handler
actually starts (type and name, in emission order) are exactly those of
the view of the accumulated text. -/
theorem handleStream_blockSigs (dec : Str → Option UpEvent)
    (parse : Str → List ToolInvocation × Str)
    (marshal : List (Str × JsonVal) → Str) (msgId : Str) (gen : Nat → Str)
    (model : Str) (chunks : List Str) (streamErr : Option Str) :
    eventBlockSigs (handleStream dec parse marshal msgId gen model chunks
        streamErr) =
      (streamBlocksView parse (AccumulatedText dec chunks)).map sigOfBlockV := by
  simp only [handleStream, eventBlockSigs, List.filterMap_cons,
    List.filterMap_append, toolEvents_sigs]
  rw [errEvents_filterMap_none streamErr sigOfEvent (fun m => rfl)]
  have hmap : ((textDeltas dec chunks).map
      (SSEEvent.contentBlockDelta 0)).filterMap sigOfEvent = [] := by
    rw [List.filterMap_map]
    simp [Function.comp, sigOfEvent]
  rw [hmap]
  simp [sigOfEvent, streamBlocksView, sigOfBlockV, AccumulatedText,
    List.map_map, Function.comp]

/-- Counterexample to C1 as stated: on a refusal text with an extractable
command and a parser finding no structured invocation, the non-streaming
variant synthesizes the three-block recovery sequence while the streaming
variant emits a single text block — the refusal fallback exists only in
the non-streaming path (anthropic.go lines 469-508 have no counterpart in
`handleStream`, lines 362-395). -/
theorem c1_counterexample :
    streamBlocksView parse0 text0 ≠
      (parseResponseToBlocks parse0 exec0 gen0 text0).map viewOfBlock := by
  decide

/-- C1 (amended): the two variants share the parser-based classification,
but the refusal-recovery fallback exists only in the non-streaming
variant, and the streaming text block carries the whole accumulated text
while the non-streaming one carries the parser's remaining text; when the
parser finds no invocations and returns the text unchanged and no
recovery fires (the text is not refusal-classified, or no command is
extractable), both variants produce the same ContentBlock sequence (same
types, names, inputs, in the same order). -/
theorem c1_variant_agreement (parse : Str → List ToolInvocation × Str)
    (exec : Str → List (Str × JsonVal) → Str × Option Str)
    (gen : Nat → Str) (text : Str)
    (hp : parse text = ([], text))
    (hr : DetectRefusal text = false ∨ ExtractCommandFromRefusal text = []) :
    streamBlocksView parse text =
      (parseResponseToBlocks parse exec gen text).map viewOfBlock := by
  have h1 : (parse text).1 = [] := by rw [hp]
  have h2 : (parse text).2 = text := by rw [hp]
  rw [parseResponseToBlocks_text_asis parse exec gen text h1 h2 hr]
  simp [streamBlocksView, viewOfBlock, h1]

/-- Witness for C1: the two variants agree on a plain text with no
refusal phrase. -/
theorem c1_variant_agreement_witness :
    DetectRefusal "hello".data = false ∧
    streamBlocksView parse0 "hello".data =
      (parseResponseToBlocks parse0 exec0 gen0 "hello".data).map viewOfBlock :=
  ⟨by decide,
   c1_variant_agreement parse0 exec0 gen0 "hello".data rfl
     (Or.inl (by decide))⟩

/-- Counterexample to C6 as stated: the same total text `a\nb`, split as
one chunk versus split right after the terminator, yields different frame
sequences — the terminator-aligned fragmentation emits an extra empty
frame (the trailing segment Go `strings.Split` produces when the buffer
ends in a terminator). -/
theorem c6_counterexample :
    ["a\nb".data].flatten = ["a\n".data, "b".data].flatten ∧
    feedAll [] ["a\nb".data] ≠ feedAll [] ["a\n".data, "b".data] :=
  ⟨by decide, by decide⟩

/-- C6 (amended): for every two fragmentations of the same total text the
reassembler yields the same pending tail and the same sequence of
non-empty frames (fragmentation invariance holds up to the artifact empty
frames emitted at terminator-aligned chunk boundaries, which the decode
stage filters out). -/
theorem c6_fragmentation_invariance (xs ys : List Str)
    (h : xs.flatten = ys.flatten) :
    (feedAll [] xs).1 = (feedAll [] ys).1 ∧
    (feedAll [] xs).2.filter (fun s => !s.isEmpty) =
      (feedAll [] ys).2.filter (fun s => !s.isEmpty) := by
  have hx := feedAll_spec xs [] (by simp)
  have hy := feedAll_spec ys [] (by simp)
  simp only [List.nil_append] at hx hy
  exact ⟨by rw [hx.1, hy.1, h], by rw [hx.2, hy.2, h]⟩

/-- Witness for C6: two fragmentations of `ab` yield the same pending
tail and the same non-empty frames. -/
theorem c6_fragmentation_invariance_witness :
    ["ab".data].flatten = ["a".data, "b".data].flatten ∧
    ((feedAll [] ["ab".data]).1 = (feedAll [] ["a".data, "b".data]).1 ∧
     (feedAll [] ["ab".data]).2.filter (fun s => !s.isEmpty) =
       (feedAll [] ["a".data, "b".data]).2.filter (fun s => !s.isEmpty)) :=
  ⟨by decide, c6_fragmentation_invariance _ _ (by decide)⟩

/-- Counterexample to C7 as stated: after feeding `a\n` then `b\n`, the
frames with terminators reinserted plus the pending buffer do not equal
the fed bytes — each terminator-ending feed emitted an artifact empty
frame whose reinserted terminator is a phantom byte. -/
theorem c7_counterexample :
    ((feedAll [] ["a\n".data, "b\n".data]).2.map (· ++ ['\n'])).flatten ++
      (feedAll [] ["a\n".data, "b\n".data]).1 ≠
      ["a\n".data, "b\n".data].flatten := by
  decide

/-- C7 (amended): after every feed sequence, the concatenation of all
chunks fed so far equals the terminator-reinserted closed lines of that
input plus the current pending buffer; the non-empty frames emitted are
exactly the non-empty closed lines in order (no closed line is lost,
duplicated or reordered — the reassembler only adds artifact empty frames
when a feed's buffer ends in a terminator); and when the buffer does not
end in a terminator, the last split segment is retained as the pending
buffer and is excluded from the returned frames. -/
theorem c7_reassembler_invariant (chunks : List Str) (p c : Str)
    (hnt : (p ++ c).getLast? ≠ some '\n') :
    joinNl (linesTail chunks.flatten).1 ++ (feedAll [] chunks).1 =
      chunks.flatten ∧
    (feedAll [] chunks).2.filter (fun s => !s.isEmpty) =
      (linesTail chunks.flatten).1.filter (fun s => !s.isEmpty) ∧
    feed p c =
      ((splitLines (p ++ c)).getLastD [], (splitLines (p ++ c)).dropLast) := by
  have hs := feedAll_spec chunks [] (by simp)
  simp only [List.nil_append] at hs
  refine ⟨by rw [hs.1, joinNl_linesTail], hs.2, ?_⟩
  have hlen : 0 < (splitLines (p ++ c)).length := by
    rw [splitLines_eq]
    simp
  show (if _ then _ else _) = _
  rw [if_pos ⟨hnt, hlen⟩]

/-- Witness for C7: a feed whose buffer does not end in a terminator
re-buffers the last split segment. -/
theorem c7_reassembler_invariant_witness :
    ("x".data ++ "ab".data).getLast? ≠ some '\n' ∧
    feed "x".data "ab".data =
      ((splitLines ("x".data ++ "ab".data)).getLastD [],
       (splitLines ("x".data ++ "ab".data)).dropLast) :=
  ⟨by decide,
   (c7_reassembler_invariant ["q\n".data] "x".data "ab".data (by decide)).2.2⟩

end Cursor2api
